import Mathlib

/-!
Verification of `frame.cxx` (hiframe).

A shallow embedding of the photo framer: the canvas layout lambda of `main`,
the decode / encode control flow of `main`, the 8-bit alpha blends, the
`unicode_iterator` UTF-8 decoder, and the shutter-speed formatting of
`parseExif`.

Conventions of the embedding.

* C++ `int` values are `Int`; bytes and code points are `Nat`, with an explicit
  `% 256` where the source casts to `unsigned char` and `% 2 ^ 32` where it
  shifts a `uint32_t`.
* `double` / `float` arithmetic is idealised as exact arithmetic over `ℚ`.
  Every concrete evaluation below is made at inputs where the IEEE computation
  is itself exact (scale factors `1` and `1/2`, alpha `0` and `1`).
* OpenCV calls that throw (`cv::resize` on an empty size, `Mat::operator()`
  on a rectangle outside the matrix) are modelled by `Except CvError`.
* A read through a string iterator outside the string is `none`.
-/

namespace Frame

set_option maxRecDepth 100000

/-! ## Canvas layout (`main`, step 3) -/

/-- Conversion of a floating value to `int`: truncation toward zero. -/
def toInt (q : ℚ) : Int := if 0 ≤ q then ⌊q⌋ else ⌈q⌉

/-- Source: `int targetW = 2160;` -/
def targetW : Int := 2160

/-- Source: `int targetH = targetW * 1.25;` -/
def targetH : Int := toInt ((targetW : ℚ) * (5 / 4))

/-- Source: `int margin = 80;` -/
def margin : Int := 80

/-- Source: `int bottomPad = 300;` -/
def bottomPad : Int := 300

/-- Source: `int footerY = targetH - bottomPad + 60;` -/
def footerY : Int := targetH - bottomPad + 60

/-- Rectangle `cv::Rect(x, y, width, height)`. -/
structure Rect where
  x : Int
  y : Int
  width : Int
  height : Int
deriving DecidableEq, Repr

/-- Image matrix `cv::Mat`: its size and the pixel stored at (row, column). -/
structure Mat (α : Type) where
  rows : Int
  cols : Int
  pix : Int → Int → α

/-- Exceptions raised by the OpenCV calls of `layout`. -/
inductive CvError where
  | resizeEmptySize
  | roiOutOfRange
deriving DecidableEq, Repr

/-- Source: `double scale = min((double)(targetW - margin*2) / src.cols,
(double)(targetH - margin*2 - bottomPad) / src.rows);` -/
def layoutScale (cols rows : Int) : ℚ :=
  min (((targetW - margin * 2 : Int) : ℚ) / (cols : ℚ))
      (((targetH - margin * 2 - bottomPad : Int) : ℚ) / (rows : ℚ))

/-- The rectangle `Rect(x, y, dw, dh)` computed by the `layout` lambda for a
source of `cols` by `rows` pixels. -/
def layoutRect (cols rows : Int) : Rect :=
  let scale := layoutScale cols rows
  let dw : Int := toInt ((cols : ℚ) * scale)
  let dh : Int := toInt ((rows : ℚ) * scale)
  let x : Int := Int.tdiv (targetW - dw) 2
  let y : Int := margin + Int.tdiv (targetH - margin * 2 - bottomPad) 2
  ⟨x, y, dw, dh⟩

/-- Assertion of `Mat::operator()(const Rect&)`: the rectangle lies in the matrix. -/
def Rect.inside (r : Rect) (rows cols : Int) : Prop :=
  0 ≤ r.x ∧ 0 ≤ r.width ∧ r.x + r.width ≤ cols ∧
  0 ≤ r.y ∧ 0 ≤ r.height ∧ r.y + r.height ≤ rows

instance (r : Rect) (rows cols : Int) : Decidable (r.inside rows cols) := by
  unfold Rect.inside
  exact inferInstance

/-- Source: `dst.setTo(padColor)`. -/
def setTo {α : Type} (dst : Mat α) (padColor : α) : Mat α :=
  { dst with pix := fun _ _ => padColor }

/-- Source: `resized.copyTo(dst(r))` for a rectangle `r` inside `dst`. -/
def copyToRoi {α : Type} (resized dst : Mat α) (r : Rect) : Mat α :=
  { dst with
    pix := fun i j =>
      if r.y ≤ i ∧ i < r.y + r.height ∧ r.x ≤ j ∧ j < r.x + r.width then
        resized.pix (i - r.y) (j - r.x)
      else dst.pix i j }

/-- The `layout` lambda of `main`. The interpolation of `cv::resize` is the
parameter `interp` (pixel of the resized image from the source and the
requested size); `cv::resize` throws on an empty size and `dst(Rect)` throws on
a rectangle that is not inside `dst`. -/
def layout {α : Type} (interp : Mat α → Int → Int → Int → Int → α)
    (src dst : Mat α) (padColor : α) : Except CvError (Mat α) :=
  let r := layoutRect src.cols src.rows
  let dst1 := setTo dst padColor
  if r.width ≤ 0 ∨ r.height ≤ 0 then Except.error CvError.resizeEmptySize
  else
    let resized : Mat α := ⟨r.height, r.width, interp src r.width r.height⟩
    if r.inside dst1.rows dst1.cols then Except.ok (copyToRoi resized dst1 r)
    else Except.error CvError.roiOutOfRange

/-! ## Decode and encode control flow (`main`, steps 2, 3 and 5)

An image variable that may be empty (`Mat::empty()`) is an `Option`; the
outcomes of the codec calls on the input buffer are inputs of the model. -/

/-- What the codec calls of `main` return on the input buffer. -/
structure Codec (S H : Type) where
  /-- Source: `is_uhdr_image(buffer.data(), size)`. -/
  is_uhdr_image : Bool
  /-- Pass 1: `some m` when `uhdr_decode` returned `UHDR_CODEC_OK` with image `m`. -/
  sdrPass : Option (Mat S)
  /-- Pass 2: `some m` when `uhdr_decode` returned `UHDR_CODEC_OK` with image `m`. -/
  hdrPass : Option (Mat H)
  /-- Source: `imdecode(buffer, IMREAD_COLOR)`; `none` is the empty matrix. -/
  imdecode : Option (Mat S)
  /-- Whether `uhdr_encode` returns `UHDR_CODEC_OK`. -/
  encodeOk : Bool

/-- State of `main` after step 2. -/
structure Decoded (S H : Type) where
  sdrMat : Mat S
  hdrMat : Option (Mat H)
  hasHDR : Bool

/-- Step 2 of `main`; `none` is the exit `Decode failed.` with `return -1`. -/
def decode {S H : Type} (c : Codec S H) : Option (Decoded S H) :=
  let sdrMat : Option (Mat S) := if c.is_uhdr_image then c.sdrPass else none
  let hdrMat : Option (Mat H) := if c.is_uhdr_image then c.hdrPass else none
  let hasHDR : Bool := c.is_uhdr_image && c.hdrPass.isSome
  match sdrMat with
  | some m => some ⟨m, hdrMat, hasHDR⟩
  | none =>
    match c.imdecode with
    | some m => some ⟨m, hdrMat, hasHDR⟩
    | none => none

/-- The canvases after step 3. -/
structure Canvases (S H : Type) where
  sdrCanvas : Mat S
  hdrCanvas : Option (Mat H)

/-- What step 5 writes to the output path. -/
inductive Written (S H : Type) where
  | nothing
  | plainJpeg (sdr : Mat S)
  | ultraHdr (sdr : Mat S) (hdr : Mat H)

/-- How `main` ends once the input file has been read. -/
inductive Outcome (S H : Type) where
  | decodeFailed
  | threw (e : CvError)
  | finished (hasHDR : Bool) (laidOut : Canvases S H) (written : Written S H)

/-- The parts of the run that `main` takes from its libraries: resize
interpolation, the pad colours, the initial content of the canvases and the
in-place pixel updates of step 4 (text and logo). -/
structure Env (S H : Type) where
  interpS : Mat S → Int → Int → Int → Int → S
  interpH : Mat H → Int → Int → Int → Int → H
  whiteS : S
  whiteH : H
  initS : Int → Int → S
  initH : Int → Int → H
  drawS : (Int → Int → S) → Int → Int → S
  drawH : (Int → Int → H) → Int → Int → H

/-- Step 3 of `main`: `sdrCanvas(targetH, targetW)` is laid out, and
`hdrCanvas` is created and laid out only under `if (hasHDR)`. An empty
`hdrMat` there would make `cv::resize` throw. -/
def resizeAndPad {S H : Type} (env : Env S H) (d : Decoded S H) :
    Except CvError (Canvases S H) :=
  match layout env.interpS d.sdrMat ⟨targetH, targetW, env.initS⟩ env.whiteS with
  | Except.error e => Except.error e
  | Except.ok sdrCanvas =>
    if d.hasHDR then
      match d.hdrMat with
      | none => Except.error CvError.resizeEmptySize
      | some hm =>
        match layout env.interpH hm ⟨targetH, targetW, env.initH⟩ env.whiteH with
        | Except.error e => Except.error e
        | Except.ok hdrCanvas => Except.ok ⟨sdrCanvas, some hdrCanvas⟩
    else Except.ok ⟨sdrCanvas, none⟩

/-- Step 5 of `main`: the gain-map encoder under `if (hasHDR)`, writing only
after a successful `uhdr_encode`; otherwise the plain JPEG. -/
def encode {S H : Type} (env : Env S H) (encodeOk hasHDR : Bool) (cv : Canvases S H) :
    Written S H :=
  let sdr : Mat S := { cv.sdrCanvas with pix := env.drawS cv.sdrCanvas.pix }
  if hasHDR then
    match cv.hdrCanvas with
    | some h =>
      if encodeOk then Written.ultraHdr sdr { h with pix := env.drawH h.pix }
      else Written.nothing
    | none => Written.nothing
  else Written.plainJpeg sdr

/-- Steps 2 to 5 of `main`. -/
def mainFlow {S H : Type} (env : Env S H) (c : Codec S H) : Outcome S H :=
  match decode c with
  | none => Outcome.decodeFailed
  | some d =>
    match resizeAndPad env d with
    | Except.error e => Outcome.threw e
    | Except.ok cv => Outcome.finished d.hasHDR cv (encode env c.encodeOk d.hasHDR cv)

/-- The canvases of a run that reached composition. -/
def Outcome.composed {S H : Type} : Outcome S H → Option (Canvases S H)
  | Outcome.finished _ cv _ => some cv
  | _ => none

/-- The value of `hasHDR` in a run that got past decoding and layout. -/
def Outcome.hasHDR {S H : Type} : Outcome S H → Option Bool
  | Outcome.finished b _ _ => some b
  | _ => none

/-- Whether the run wrote a plain JPEG file. -/
def Outcome.wrotePlainJpeg {S H : Type} : Outcome S H → Bool
  | Outcome.finished _ _ (Written.plainJpeg _) => true
  | _ => false

/-- A `rows` by `cols` image of constant pixels, used as a concrete input. -/
def solid (rows cols : Int) : Mat Nat := ⟨rows, cols, fun _ _ => 0⟩

/-- A concrete environment: nearest-corner resize, white `255`, no drawing. -/
def sampleEnv : Env Nat Nat :=
  { interpS := fun src _ _ _ _ => src.pix 0 0
    interpH := fun src _ _ _ _ => src.pix 0 0
    whiteS := 255
    whiteH := 1
    initS := fun _ _ => 0
    initH := fun _ _ => 0
    drawS := fun f => f
    drawH := fun f => f }

/-- A gain-map input on which both passes succeed with 4000 x 3000 images. -/
def bothPassesOk : Codec Nat Nat :=
  ⟨true, some (solid 3000 4000), some (solid 3000 4000), some (solid 3000 4000), true⟩

/-! ## 8-bit alpha blends -/

/-- Cast `(uchar)v` of a floating value: truncation, then the low 8 bits. -/
def ucharCast (q : ℚ) : Nat := (toInt q % 256).toNat

/-- OpenCV `cvRound`: nearest integer, ties to even. -/
def cvRound (q : ℚ) : Int :=
  let f : Int := ⌊q⌋
  let r : ℚ := q - (f : ℚ)
  if r < 1 / 2 then f
  else if 1 / 2 < r then f + 1
  else if f % 2 = 0 then f else f + 1

/-- OpenCV `saturate_cast<uchar>(float)`: round, then clamp to `0..255`. -/
def saturate_cast_uchar (q : ℚ) : Nat :=
  let iv := cvRound q
  if 0 ≤ iv ∧ iv ≤ 255 then iv.toNat else if 0 < iv then 255 else 0

/-- One channel of the `CV_8U` branch of `TextRenderer::putText`:
`alpha = coverage / 255.0; if (alpha > 0) pixel[i] = (uchar)(pixel[i] * (1.0 - alpha)
+ color[i] * alpha);`. -/
def putTextBlend (pixel : Nat) (color : ℚ) (coverage : Nat) : Nat :=
  let alpha : ℚ := (coverage : ℚ) / 255
  if 0 < alpha then ucharCast ((pixel : ℚ) * (1 - alpha) + color * alpha) else pixel

/-- One channel of the SDR logo blend of `main`: `a = p[3]/255.f; if (a > 0)
b[k] = saturate_cast<uchar>(b[k]*(1-a) + p[k]*a);`. -/
def logoBlend (b : Nat) (p : Nat) (p3 : Nat) : Nat :=
  let a : ℚ := (p3 : ℚ) / 255
  if 0 < a then saturate_cast_uchar ((b : ℚ) * (1 - a) + (p : ℚ) * a) else b

/-! ## UTF-8 iterator -/

/-- Source: `class unicode_iterator`. The two string iterators are positions
in the bytes `str` of the string they point into. -/
structure unicode_iterator where
  str : List Nat
  m_it : Nat
  m_end : Nat
deriving DecidableEq, Repr

/-- Read `static_cast<unsigned char>(*it)` at position `i`; `none` outside the string. -/
def byteAt (s : List Nat) (i : Nat) : Option Nat := (s[i]?).map (fun b => b % 256)

/-- Loop of `decode_continuation`: `n` iterations left, `temp_it` and `current_cp`. -/
def decode_continuation_loop (it : unicode_iterator) : Nat → Nat → Nat → Option Nat
  | 0, _, current_cp => some current_cp
  | n + 1, temp_it, current_cp =>
    if temp_it + 1 = it.m_end then some 0xFFFD
    else
      match byteAt it.str (temp_it + 1) with
      | none => none
      | some next_c =>
        if next_c &&& 0xC0 ≠ 0x80 then some 0xFFFD
        else
          decode_continuation_loop it n (temp_it + 1)
            (((current_cp <<< 6) % 2 ^ 32) ||| (next_c &&& 0x3F))

/-- Source: `unicode_iterator::decode_continuation`. -/
def decode_continuation (it : unicode_iterator) (remaining_bytes current_cp : Nat) :
    Option Nat :=
  decode_continuation_loop it remaining_bytes it.m_it current_cp

/-- Source: `unicode_iterator::operator*`. -/
def deref (it : unicode_iterator) : Option Nat :=
  if it.m_it = it.m_end then some 0
  else
    match byteAt it.str it.m_it with
    | none => none
    | some c =>
      if c &&& 0x80 = 0 then some c
      else if c &&& 0xE0 = 0xC0 then decode_continuation it 1 (c &&& 0x1F)
      else if c &&& 0xF0 = 0xE0 then decode_continuation it 2 (c &&& 0x0F)
      else if c &&& 0xF8 = 0xF0 then decode_continuation it 3 (c &&& 0x07)
      else some 0xFFFD

/-- Length chosen by `operator++` from the lead byte. -/
def seqLen (c : Nat) : Nat :=
  if c &&& 0x80 = 0 then 1
  else if c &&& 0xE0 = 0xC0 then 2
  else if c &&& 0xF0 = 0xE0 then 3
  else if c &&& 0xF8 = 0xF0 then 4
  else 1

/-- Loop of `operator++`: `for (i = 0; i < len && m_it != m_end; ++i) ++m_it;`
with `n` iterations left. -/
def advance (m_end : Nat) : Nat → Nat → Nat
  | 0, m_it => m_it
  | n + 1, m_it => if m_it = m_end then m_it else advance m_end n (m_it + 1)

/-- Source: `unicode_iterator::operator++` (prefix). -/
def increment (it : unicode_iterator) : Option unicode_iterator :=
  if it.m_it = it.m_end then some it
  else
    match byteAt it.str it.m_it with
    | none => none
    | some c => some { it with m_it := advance it.m_end (seqLen c) it.m_it }

/-- Source: `utf8_begin`. -/
def utf8_begin (str : List Nat) : unicode_iterator := ⟨str, 0, str.length⟩

/-- Source: `utf8_end`. -/
def utf8_end (str : List Nat) : unicode_iterator := ⟨str, str.length, str.length⟩

/-- Apply `operator++` `k` times. -/
def incrementN : Nat → unicode_iterator → Option unicode_iterator
  | 0, it => some it
  | k + 1, it => (increment it).bind (incrementN k)

/-- The range loop `for (it = first; it != last; ++it) out.push_back(*it);`
run for at most `fuel` rounds (`operator!=` compares `m_it`). -/
def collect : Nat → unicode_iterator → unicode_iterator → Option (List Nat)
  | 0, it, last => if it.m_it = last.m_it then some [] else none
  | fuel + 1, it, last =>
    if it.m_it = last.m_it then some []
    else
      match deref it, increment it with
      | some v, some next => (collect fuel next last).map (fun rest => v :: rest)
      | _, _ => none

/-- Decode a whole string with the range loop from `utf8_begin` to `utf8_end`. -/
def decodeAll (str : List Nat) : Option (List Nat) :=
  collect str.length (utf8_begin str) (utf8_end str)

/-- A Unicode scalar value. -/
def isScalar (cp : Nat) : Prop := cp ≤ 0x10FFFF ∧ ¬ (0xD800 ≤ cp ∧ cp ≤ 0xDFFF)

instance (cp : Nat) : Decidable (isScalar cp) := by
  unfold isScalar
  exact inferInstance

/-- The standard UTF-8 encoding of one scalar value (1 to 4 bytes). -/
def utf8EncodeChar (cp : Nat) : List Nat :=
  if cp < 0x80 then [cp]
  else if cp < 0x800 then [0xC0 ||| (cp >>> 6), 0x80 ||| (cp &&& 0x3F)]
  else if cp < 0x10000 then
    [0xE0 ||| (cp >>> 12), 0x80 ||| ((cp >>> 6) &&& 0x3F), 0x80 ||| (cp &&& 0x3F)]
  else
    [0xF0 ||| (cp >>> 18), 0x80 ||| ((cp >>> 12) &&& 0x3F),
     0x80 ||| ((cp >>> 6) &&& 0x3F), 0x80 ||| (cp &&& 0x3F)]

/-- The standard UTF-8 encoding of a list of scalar values. -/
def utf8Encode : List Nat → List Nat
  | [] => []
  | cp :: rest => utf8EncodeChar cp ++ utf8Encode rest

/-! ## Shutter-speed formatting (`parseExif`)

`Exiv2::Rational` is a pair of 32-bit integers. An expression whose evaluation
is undefined in C++ (integer division by zero or with overflow, conversion to
`int` of a floating value that is infinite or out of range) is `none`; such a
fault is not an `Exiv2::Error`, so the `catch` of `parseExif` does not stop it. -/

/-- Integer division `a / b` on `int`: undefined for `b = 0` and for
`INT_MIN / -1`, otherwise truncated. -/
def intDiv (a b : Int) : Option Int :=
  if b = 0 then none
  else if a = -(2 ^ 31) ∧ b = -1 then none
  else some (Int.tdiv a b)

/-- Evaluation of `int(0.5 + (double)second / first)`: the quotient is infinite
for `first = 0`, and the conversion is defined only for a value whose
truncation is an `int`. -/
def roundedReciprocal (first second : Int) : Option Int :=
  if first = 0 then none
  else
    let v : Int := toInt (1 / 2 + (second : ℚ) / (first : ℚ))
    if -(2 ^ 31) ≤ v ∧ v < 2 ^ 31 then some v else none

/-- Source: `std::to_string(int)`. -/
def to_string (n : Int) : String := toString n

/-- The two branches of `parseExif` that fill `meta.shutter` from
`r = exifData["Exif.Photo.ExposureTime"].toRational()`. -/
def shutterSpeed (first second : Int) : Option String :=
  if second ≤ first then (intDiv first second).map (fun q => to_string q ++ "s")
  else (roundedReciprocal first second).map (fun q => "1/" ++ to_string q ++ "s")

/-- The field `meta.shutter` after `parseExif`: left empty when the key
`Exif.Photo.ExposureTime` is absent, formatted otherwise. -/
def parseExifShutter (exposureTime : Option (Int × Int)) : Option String :=
  match exposureTime with
  | none => some ""
  | some r => shutterSpeed r.1 r.2

/-! ### Facts about the layout arithmetic -/

theorem toInt_of_nonneg {q : ℚ} (h : 0 ≤ q) : toInt q = ⌊q⌋ := if_pos h

theorem targetH_eq : targetH = 2700 := by
  simp only [targetH, targetW, toInt]
  norm_num

theorem footerY_eq : footerY = 2460 := by
  simp only [footerY, targetH_eq, bottomPad]
  norm_num

theorem layoutRect_y (cols rows : Int) : (layoutRect cols rows).y = 1200 := by
  simp only [layoutRect, targetH_eq, margin, bottomPad]
  decide

theorem layoutRect_4000_3000 : layoutRect 4000 3000 = ⟨80, 1200, 2000, 1500⟩ := by
  simp only [layoutRect, layoutScale, targetH_eq, targetW, margin, bottomPad, toInt]
  norm_num
  decide

theorem layoutRect_2000_2240 : layoutRect 2000 2240 = ⟨80, 1200, 2000, 2240⟩ := by
  simp only [layoutRect, layoutScale, targetH_eq, targetW, margin, bottomPad, toInt]
  norm_num
  decide

theorem layout_dims {α : Type} (interp : Mat α → Int → Int → Int → Int → α)
    (src dst : Mat α) (padColor : α) (m : Mat α)
    (h : layout interp src dst padColor = Except.ok m) :
    m.rows = dst.rows ∧ m.cols = dst.cols := by
  unfold layout at h
  simp only at h
  split at h
  · cases h
  · split at h
    · cases h
      exact ⟨rfl, rfl⟩
    · cases h

theorem layout_4000_3000 {α : Type} (interp : Mat α → Int → Int → Int → Int → α)
    (pix pix0 : Int → Int → α) (padColor : α) :
    layout interp ⟨3000, 4000, pix⟩ ⟨targetH, targetW, pix0⟩ padColor =
      Except.ok (copyToRoi ⟨1500, 2000, interp ⟨3000, 4000, pix⟩ 2000 1500⟩
        (setTo ⟨targetH, targetW, pix0⟩ padColor) ⟨80, 1200, 2000, 1500⟩) := by
  simp only [layout, layoutRect_4000_3000, setTo, Rect.inside, targetH_eq, targetW]
  norm_num

/-- C1 (code defect): for a 2000 x 2240 source the lambda computes the rectangle
`(80, 1200, 2000, 2240)`, whose bottom edge `3440` is below the 2700-row
canvas, so `dst(Rect(x, y, dw, dh))` throws instead of copying. The top edge
`y` is `1200` for every source, whatever its height. -/
theorem layout_roi_outside_canvas {α : Type} (interp : Mat α → Int → Int → Int → Int → α)
    (pix pix0 : Int → Int → α) (padColor : α) :
    layoutRect 2000 2240 = ⟨80, 1200, 2000, 2240⟩ ∧
    targetH < (layoutRect 2000 2240).y + (layoutRect 2000 2240).height ∧
    layout interp ⟨2240, 2000, pix⟩ ⟨targetH, targetW, pix0⟩ padColor =
      Except.error CvError.roiOutOfRange ∧
    (∀ cols rows : Int, (layoutRect cols rows).y = 1200) := by
  refine ⟨layoutRect_2000_2240, ?_, ?_, layoutRect_y⟩
  · rw [layoutRect_2000_2240, targetH_eq]
    decide
  · simp only [layout, layoutRect_2000_2240, setTo, Rect.inside, targetH_eq, targetW]
    norm_num

/-- C2 (code defect): for a 4000 x 3000 source the photo is placed at rows
`1200 .. 2700`, below the footer line `targetH - bottomPad = 2400`, and the
canvas pixel at the footer text origin `(footerY, margin)` is a photo pixel. -/
theorem layout_photo_covers_footer {α : Type} (interp : Mat α → Int → Int → Int → Int → α)
    (pix pix0 : Int → Int → α) (padColor : α) :
    layoutRect 4000 3000 = ⟨80, 1200, 2000, 1500⟩ ∧
    targetH - bottomPad < (layoutRect 4000 3000).y + (layoutRect 4000 3000).height ∧
    footerY < (layoutRect 4000 3000).y + (layoutRect 4000 3000).height ∧
    (layout interp ⟨3000, 4000, pix⟩ ⟨targetH, targetW, pix0⟩ padColor).toOption.map
        (fun m => m.pix footerY margin) =
      some (interp ⟨3000, 4000, pix⟩ 2000 1500 (footerY - 1200) 0) := by
  refine ⟨layoutRect_4000_3000, ?_, ?_, ?_⟩
  · rw [layoutRect_4000_3000, targetH_eq, bottomPad]
    decide
  · rw [layoutRect_4000_3000, footerY_eq]
    decide
  · rw [layout_4000_3000]
    simp only [Except.toOption, Option.map, copyToRoi, footerY_eq, margin]
    norm_num

theorem toInt_natCast (n : Nat) : toInt (n : ℚ) = (n : Int) := by
  rw [toInt_of_nonneg (Nat.cast_nonneg n)]
  exact Int.floor_natCast n

theorem ucharCast_natCast (n : Nat) (h : n ≤ 255) : ucharCast (n : ℚ) = n := by
  unfold ucharCast
  rw [toInt_natCast]
  omega

theorem cvRound_natCast (n : Nat) : cvRound (n : ℚ) = (n : Int) := by
  unfold cvRound
  have hf : ⌊(n : ℚ)⌋ = (n : Int) := Int.floor_natCast n
  simp only [hf]
  norm_num

theorem saturate_cast_uchar_natCast (n : Nat) (h : n ≤ 255) :
    saturate_cast_uchar (n : ℚ) = n := by
  unfold saturate_cast_uchar
  rw [cvRound_natCast]
  have h1 : (0 : Int) ≤ (n : Int) ∧ (n : Int) ≤ 255 := by omega
  simp only [h1, and_self, if_true]
  exact Int.toNat_natCast n

/-- C5: on an 8-bit target, for destination and source channel values `d`, `s`
in `0..255`, both the glyph blend of `putText` and the logo blend of `main`
leave `d` unchanged at coverage / alpha byte `0` and produce exactly `s` at
coverage / alpha byte `255`. -/
theorem blend_boundary_values (d s : Nat) (_hd : d ≤ 255) (hs : s ≤ 255) :
    putTextBlend d (s : ℚ) 0 = d ∧ putTextBlend d (s : ℚ) 255 = s ∧
    logoBlend d s 0 = d ∧ logoBlend d s 255 = s := by
  refine ⟨?_, ?_, ?_, ?_⟩
  · simp [putTextBlend]
  · have e : (d : ℚ) * (1 - (255 : ℚ) / 255) + (s : ℚ) * ((255 : ℚ) / 255) = (s : ℚ) := by
      norm_num
    simp only [putTextBlend, Nat.cast_ofNat, e]
    rw [ucharCast_natCast s hs]
    norm_num
  · simp [logoBlend]
  · have e : (d : ℚ) * (1 - (255 : ℚ) / 255) + (s : ℚ) * ((255 : ℚ) / 255) = (s : ℚ) := by
      norm_num
    simp only [logoBlend, Nat.cast_ofNat, e]
    rw [saturate_cast_uchar_natCast s hs]
    norm_num

/-- Witness for C5 at destination `17` and source `200`. -/
theorem blend_boundary_values_witness :
    (17 : Nat) ≤ 255 ∧ (200 : Nat) ≤ 255 ∧
    putTextBlend 17 ((200 : Nat) : ℚ) 0 = 17 ∧ putTextBlend 17 ((200 : Nat) : ℚ) 255 = 200 ∧
    logoBlend 17 200 0 = 17 ∧ logoBlend 17 200 255 = 200 :=
  ⟨by decide, by decide, blend_boundary_values 17 200 (by decide) (by decide)⟩

/-! ### Canvas size -/

theorem resizeAndPad_dims {S H : Type} (env : Env S H) (d : Decoded S H)
    (cv : Canvases S H) (h : resizeAndPad env d = Except.ok cv) :
    (cv.sdrCanvas.cols = 2160 ∧ cv.sdrCanvas.rows = 2700) ∧
    (∀ hc, cv.hdrCanvas = some hc → hc.cols = 2160 ∧ hc.rows = 2700) ∧
    (d.hasHDR = true → cv.hdrCanvas.isSome = true) := by
  unfold resizeAndPad at h
  split at h
  · cases h
  · rename_i sdrCanvas hs
    have ds := layout_dims _ _ _ _ _ hs
    simp only [targetH_eq, targetW] at ds
    split at h
    · split at h
      · cases h
      · split at h
        · cases h
        · rename_i hdrCanvas hl
          have dh := layout_dims _ _ _ _ _ hl
          simp only [targetH_eq, targetW] at dh
          cases h
          refine ⟨⟨ds.2, ds.1⟩, ?_, fun _ => rfl⟩
          intro hc hhc
          cases hhc
          exact ⟨dh.2, dh.1⟩
    · rename_i hno
      cases h
      refine ⟨⟨ds.2, ds.1⟩, ?_, fun ht => absurd ht hno⟩
      intro hc hhc
      cases hhc

/-- C6: `targetH = int(2160 * 1.25) = 2700`; `layout` returns a canvas of the
size it was given; and in every run that reaches composition the SDR canvas
is 2160 wide and 2700 high, the HDR canvas, when present, has the same size,
and it is present whenever `hasHDR` is true. -/
theorem canvas_size_fixed {S H : Type} (env : Env S H) (c : Codec S H)
    (cv : Canvases S H) (h : (mainFlow env c).composed = some cv) :
    targetW = 2160 ∧ targetH = 2700 ∧
    (∀ (src dst m : Mat S), layout env.interpS src dst env.whiteS = Except.ok m →
      m.rows = dst.rows ∧ m.cols = dst.cols) ∧
    (cv.sdrCanvas.cols = 2160 ∧ cv.sdrCanvas.rows = 2700) ∧
    (∀ hc, cv.hdrCanvas = some hc →
      hc.cols = cv.sdrCanvas.cols ∧ hc.rows = cv.sdrCanvas.rows ∧
      hc.cols = 2160 ∧ hc.rows = 2700) ∧
    ((mainFlow env c).hasHDR = some true → cv.hdrCanvas.isSome = true) := by
  refine ⟨rfl, targetH_eq, fun src dst m hm => layout_dims _ _ _ _ _ hm, ?_⟩
  unfold mainFlow at h ⊢
  cases hd : decode c with
  | none =>
    rw [hd] at h
    cases h
  | some d =>
    rw [hd] at h
    simp only at h ⊢
    cases hr : resizeAndPad env d with
    | error e =>
      rw [hr] at h
      cases h
    | ok cv0 =>
      rw [hr] at h
      simp only [Outcome.composed, Option.some.injEq] at h
      subst h
      obtain ⟨h1, h2, h3⟩ := resizeAndPad_dims env d cv0 hr
      refine ⟨h1, ?_, ?_⟩
      · intro hc hhc
        obtain ⟨a, b⟩ := h2 hc hhc
        exact ⟨by rw [a, h1.1], by rw [b, h1.2], a, b⟩
      · intro hh
        simp only [Outcome.hasHDR, Option.some.injEq] at hh
        exact h3 hh

/-- Witness for C6 on a gain-map input whose two passes give 4000 x 3000 images. -/
theorem canvas_size_fixed_witness :
    ∃ cv, (mainFlow sampleEnv bothPassesOk).composed = some cv ∧
      cv.sdrCanvas.cols = 2160 ∧ cv.sdrCanvas.rows = 2700 ∧
      ∀ hc, cv.hdrCanvas = some hc →
        hc.cols = cv.sdrCanvas.cols ∧ hc.rows = cv.sdrCanvas.rows ∧
        hc.cols = 2160 ∧ hc.rows = 2700 := by
  have hs : ((mainFlow sampleEnv bothPassesOk).composed).isSome = true := by
    simp [mainFlow, decode, bothPassesOk, resizeAndPad, sampleEnv, solid, layout_4000_3000,
      Outcome.composed]
  obtain ⟨cv, hcv⟩ := Option.isSome_iff_exists.mp hs
  have key := canvas_size_fixed sampleEnv bothPassesOk cv hcv
  exact ⟨cv, hcv, key.2.2.2.1.1, key.2.2.2.1.2, key.2.2.2.2.1⟩

/-! ### Bytes and bit patterns -/

theorem and63 (x : Nat) : x &&& 0x3F = x % 64 := Nat.and_pow_two_sub_one_eq_mod x 6

theorem shr6 (x : Nat) : x >>> 6 = x / 64 := Nat.shiftRight_eq_div_pow x 6

theorem shr12 (x : Nat) : x >>> 12 = x / 4096 := Nat.shiftRight_eq_div_pow x 12

theorem shr18 (x : Nat) : x >>> 18 = x / 262144 := Nat.shiftRight_eq_div_pow x 18

/-- One accumulation step of `decode_continuation` does not overflow 32 bits. -/
theorem accum (a t : Nat) (ha : a < 2 ^ 26) (ht : t < 64) :
    ((a <<< 6) % 2 ^ 32) ||| t = a * 64 + t := by
  rw [Nat.shiftLeft_eq, Nat.mod_eq_of_lt (by omega), Nat.mul_comm a (2 ^ 6)]
  have h := @Nat.mul_add_lt_is_or 6 t (by omega) a
  omega

theorem byte_classes : ∀ c < 256,
    (c &&& 0x80 = 0 ↔ c < 0x80) ∧ (c &&& 0xE0 = 0xC0 ↔ 0xC0 ≤ c ∧ c < 0xE0) ∧
    (c &&& 0xF0 = 0xE0 ↔ 0xE0 ≤ c ∧ c < 0xF0) ∧ (c &&& 0xF8 = 0xF0 ↔ 0xF0 ≤ c ∧ c < 0xF8) ∧
    c &&& 0x1F < 32 ∧ c &&& 0x0F < 16 ∧ c &&& 0x07 < 8 := by decide

theorem lead2_facts : ∀ t < 32, (0xC0 ||| t) < 256 ∧ 0xC0 ≤ (0xC0 ||| t) ∧
    (0xC0 ||| t) < 0xE0 ∧ (0xC0 ||| t) &&& 0x1F = t := by decide

theorem lead3_facts : ∀ t < 16, (0xE0 ||| t) < 256 ∧ 0xE0 ≤ (0xE0 ||| t) ∧
    (0xE0 ||| t) < 0xF0 ∧ (0xE0 ||| t) &&& 0x0F = t := by decide

theorem lead4_facts : ∀ t < 8, (0xF0 ||| t) < 256 ∧ 0xF0 ≤ (0xF0 ||| t) ∧
    (0xF0 ||| t) < 0xF8 ∧ (0xF0 ||| t) &&& 0x07 = t := by decide

theorem cont_facts : ∀ t < 64, (0x80 ||| t) < 256 ∧ (0x80 ||| t) &&& 0xC0 = 0x80 ∧
    (0x80 ||| t) &&& 0x3F = t := by decide

theorem byteAt_lt (s : List Nat) (i : Nat) (h : i < s.length) :
    ∃ c, byteAt s i = some c ∧ c < 256 := by
  refine ⟨s[i] % 256, ?_, Nat.mod_lt _ (by decide)⟩
  simp [byteAt, List.getElem?_eq_getElem h]

theorem byteAt_append (pre l : List Nat) (i : Nat) :
    byteAt (pre ++ l) (pre.length + i) = byteAt l i := by
  simp [byteAt, List.getElem?_append_right]

theorem byteAt_cons_zero (b : Nat) (l : List Nat) : byteAt (b :: l) 0 = some (b % 256) := by
  simp [byteAt]

theorem byteAt_cons_succ (b : Nat) (l : List Nat) (i : Nat) :
    byteAt (b :: l) (i + 1) = byteAt l i := by
  simp [byteAt]

theorem seqLen_bounds (c : Nat) : 1 ≤ seqLen c ∧ seqLen c ≤ 4 := by
  unfold seqLen
  split_ifs <;> omega

theorem advance_eq (e : Nat) : ∀ (n p : Nat), p ≤ e → advance e n p = min (p + n) e
  | 0, p, h => by simp [advance, h]
  | n + 1, p, h => by
    unfold advance
    by_cases hp : p = e
    · simp [hp]
    · rw [if_neg hp, advance_eq e n (p + 1) (by omega)]
      omega

theorem increment_eq (s : List Nat) (pos : Nat) (h : pos < s.length) :
    ∃ c, byteAt s pos = some c ∧ c < 256 ∧
      increment ⟨s, pos, s.length⟩ =
        some ⟨s, min (pos + seqLen c) s.length, s.length⟩ := by
  obtain ⟨c, hc, hlt⟩ := byteAt_lt s pos h
  refine ⟨c, hc, hlt, ?_⟩
  unfold increment
  simp only [hc, if_neg (Nat.ne_of_lt h)]
  rw [advance_eq _ _ _ (Nat.le_of_lt h)]

theorem loop_succ (it : unicode_iterator) (n temp cp b : Nat)
    (h1 : temp + 1 ≠ it.m_end) (h2 : byteAt it.str (temp + 1) = some b)
    (h3 : b &&& 0xC0 = 0x80) :
    decode_continuation_loop it (n + 1) temp cp =
      decode_continuation_loop it n (temp + 1) (((cp <<< 6) % 2 ^ 32) ||| (b &&& 0x3F)) := by
  rw [decode_continuation_loop]
  simp [h1, h2, h3]

/-! ### Dereference on a well-formed sequence -/

theorem deref_one (s : List Nat) (p b0 : Nat) (hp : p < s.length)
    (h0 : byteAt s p = some b0) (c0 : b0 < 0x80) :
    deref ⟨s, p, s.length⟩ = some b0 := by
  have k := (byte_classes b0 (by omega)).1
  unfold deref
  simp only [if_neg (Nat.ne_of_lt hp), h0, if_pos (k.2 c0)]

theorem deref_two (s : List Nat) (p b0 b1 : Nat) (hp : p + 1 < s.length)
    (h0 : byteAt s p = some b0) (h1 : byteAt s (p + 1) = some b1)
    (c0 : 0xC0 ≤ b0 ∧ b0 < 0xE0) (c1 : b1 &&& 0xC0 = 0x80) :
    deref ⟨s, p, s.length⟩ =
      some ((((b0 &&& 0x1F) <<< 6) % 2 ^ 32) ||| (b1 &&& 0x3F)) := by
  obtain ⟨k1, k2, _, _, _⟩ := byte_classes b0 (by omega)
  have n1 : ¬ (b0 &&& 0x80 = 0) := fun h => by have := k1.1 h; omega
  unfold deref
  simp only [if_neg (show p ≠ s.length by omega), h0, if_neg n1, if_pos (k2.2 c0)]
  unfold decode_continuation
  rw [loop_succ _ 0 p _ b1 (by simp; omega) h1 c1]
  rfl

theorem deref_three (s : List Nat) (p b0 b1 b2 : Nat) (hp : p + 2 < s.length)
    (h0 : byteAt s p = some b0) (h1 : byteAt s (p + 1) = some b1)
    (h2 : byteAt s (p + 2) = some b2)
    (c0 : 0xE0 ≤ b0 ∧ b0 < 0xF0) (c1 : b1 &&& 0xC0 = 0x80) (c2 : b2 &&& 0xC0 = 0x80) :
    deref ⟨s, p, s.length⟩ =
      some ((((((((b0 &&& 0x0F) <<< 6) % 2 ^ 32) ||| (b1 &&& 0x3F)) <<< 6) % 2 ^ 32)) |||
        (b2 &&& 0x3F)) := by
  obtain ⟨k1, k2, k3, _, _⟩ := byte_classes b0 (by omega)
  have n1 : ¬ (b0 &&& 0x80 = 0) := fun h => by have := k1.1 h; omega
  have n2 : ¬ (b0 &&& 0xE0 = 0xC0) := fun h => by have := k2.1 h; omega
  unfold deref
  simp only [if_neg (show p ≠ s.length by omega), h0, if_neg n1, if_neg n2, if_pos (k3.2 c0)]
  unfold decode_continuation
  rw [loop_succ _ 1 p _ b1 (by simp; omega) h1 c1,
    loop_succ _ 0 (p + 1) _ b2 (by simp; omega) h2 c2]
  rfl

theorem deref_four (s : List Nat) (p b0 b1 b2 b3 : Nat) (hp : p + 3 < s.length)
    (h0 : byteAt s p = some b0) (h1 : byteAt s (p + 1) = some b1)
    (h2 : byteAt s (p + 2) = some b2) (h3 : byteAt s (p + 3) = some b3)
    (c0 : 0xF0 ≤ b0 ∧ b0 < 0xF8) (c1 : b1 &&& 0xC0 = 0x80) (c2 : b2 &&& 0xC0 = 0x80)
    (c3 : b3 &&& 0xC0 = 0x80) :
    deref ⟨s, p, s.length⟩ =
      some (((((((((((b0 &&& 0x07) <<< 6) % 2 ^ 32) ||| (b1 &&& 0x3F)) <<< 6) % 2 ^ 32)) |||
        (b2 &&& 0x3F)) <<< 6) % 2 ^ 32) ||| (b3 &&& 0x3F)) := by
  obtain ⟨k1, k2, k3, k4, _⟩ := byte_classes b0 (by omega)
  have n1 : ¬ (b0 &&& 0x80 = 0) := fun h => by have := k1.1 h; omega
  have n2 : ¬ (b0 &&& 0xE0 = 0xC0) := fun h => by have := k2.1 h; omega
  have n3 : ¬ (b0 &&& 0xF0 = 0xE0) := fun h => by have := k3.1 h; omega
  unfold deref
  simp only [if_neg (show p ≠ s.length by omega), h0, if_neg n1, if_neg n2, if_neg n3,
    if_pos (k4.2 c0)]
  unfold decode_continuation
  rw [loop_succ _ 2 p _ b1 (by simp; omega) h1 c1,
    loop_succ _ 1 (p + 1) _ b2 (by simp; omega) h2 c2,
    loop_succ _ 0 (p + 2) _ b3 (by simp; omega) h3 c3]
  rfl

theorem seqLen_of_class (c : Nat) (hc : c < 256) :
    (c < 0x80 → seqLen c = 1) ∧ (0xC0 ≤ c ∧ c < 0xE0 → seqLen c = 2) ∧
    (0xE0 ≤ c ∧ c < 0xF0 → seqLen c = 3) ∧ (0xF0 ≤ c ∧ c < 0xF8 → seqLen c = 4) := by
  obtain ⟨k1, k2, k3, k4, _⟩ := byte_classes c hc
  unfold seqLen
  refine ⟨fun h => ?_, fun h => ?_, fun h => ?_, fun h => ?_⟩
  · rw [if_pos (k1.2 h)]
  · rw [if_neg (fun e => by have := k1.1 e; omega), if_pos (k2.2 h)]
  · rw [if_neg (fun e => by have := k1.1 e; omega), if_neg (fun e => by have := k2.1 e; omega),
      if_pos (k3.2 h)]
  · rw [if_neg (fun e => by have := k1.1 e; omega), if_neg (fun e => by have := k2.1 e; omega),
      if_neg (fun e => by have := k3.1 e; omega), if_pos (k4.2 h)]

/-! ### Round trip of one encoded value -/

theorem utf8EncodeChar_length (cp : Nat) :
    1 ≤ (utf8EncodeChar cp).length ∧ (utf8EncodeChar cp).length ≤ 4 := by
  unfold utf8EncodeChar
  split_ifs <;> simp

theorem byteAt_mod (b : Nat) (h : b < 256) : some (b % 256) = some b := by
  rw [Nat.mod_eq_of_lt h]

theorem roundtrip_one (pre post : List Nat) (cp : Nat) (h : cp < 0x80) :
    deref ⟨pre ++ (cp :: post), pre.length, (pre ++ (cp :: post)).length⟩ = some cp ∧
    increment ⟨pre ++ (cp :: post), pre.length, (pre ++ (cp :: post)).length⟩ =
      some ⟨pre ++ (cp :: post), pre.length + 1, (pre ++ (cp :: post)).length⟩ := by
  have hlen : pre.length < (pre ++ (cp :: post)).length := by simp
  have h0 : byteAt (pre ++ (cp :: post)) pre.length = some cp := by
    have := byteAt_append pre (cp :: post) 0
    rw [Nat.add_zero] at this
    rw [this, byteAt_cons_zero, byteAt_mod cp (by omega)]
  refine ⟨deref_one _ _ _ hlen h0 h, ?_⟩
  obtain ⟨c, hc, hc256, hinc⟩ := increment_eq _ _ hlen
  rw [h0] at hc
  cases hc
  rw [hinc, (seqLen_of_class cp hc256).1 h, Nat.min_eq_left (by omega)]

theorem roundtrip_two (pre post : List Nat) (cp : Nat) (hlo : 0x80 ≤ cp) (h : cp < 0x800)
    (s : List Nat)
    (hs : s = pre ++ ((0xC0 ||| (cp >>> 6)) :: (0x80 ||| (cp &&& 0x3F)) :: post)) :
    deref ⟨s, pre.length, s.length⟩ = some cp ∧
    increment ⟨s, pre.length, s.length⟩ = some ⟨s, pre.length + 2, s.length⟩ := by
  have _hlo := hlo
  rw [shr6, and63] at hs
  obtain ⟨a1, a2, a3, a4⟩ := lead2_facts (cp / 64) (by omega)
  obtain ⟨d1, d2, d3⟩ := cont_facts (cp % 64) (by omega)
  have hlen : pre.length + 1 < s.length := by
    rw [hs]
    simp
  have h0 : byteAt s pre.length = some (0xC0 ||| (cp / 64)) := by
    have := byteAt_append pre ((0xC0 ||| (cp / 64)) :: (0x80 ||| (cp % 64)) :: post) 0
    rw [Nat.add_zero] at this
    rw [hs, this, byteAt_cons_zero, byteAt_mod _ a1]
  have h1 : byteAt s (pre.length + 1) = some (0x80 ||| (cp % 64)) := by
    rw [hs, byteAt_append, byteAt_cons_succ, byteAt_cons_zero, byteAt_mod _ d1]
  refine ⟨?_, ?_⟩
  · rw [deref_two s _ _ _ hlen h0 h1 ⟨a2, a3⟩ d2, a4, d3, accum _ _ (by omega) (by omega)]
    congr 1
    omega
  · obtain ⟨c, hc, hc256, hinc⟩ := increment_eq s pre.length (by omega)
    rw [h0] at hc
    cases hc
    rw [hinc, (seqLen_of_class _ hc256).2.1 ⟨a2, a3⟩, Nat.min_eq_left (by omega)]

theorem roundtrip_three (pre post : List Nat) (cp : Nat) (hlo : 0x800 ≤ cp)
    (h : cp < 0x10000) (s : List Nat)
    (hs : s = pre ++ ((0xE0 ||| (cp >>> 12)) :: (0x80 ||| ((cp >>> 6) &&& 0x3F)) ::
      (0x80 ||| (cp &&& 0x3F)) :: post)) :
    deref ⟨s, pre.length, s.length⟩ = some cp ∧
    increment ⟨s, pre.length, s.length⟩ = some ⟨s, pre.length + 3, s.length⟩ := by
  have _hlo := hlo
  rw [shr12, shr6, and63, and63] at hs
  obtain ⟨a1, a2, a3, a4⟩ := lead3_facts (cp / 4096) (by omega)
  obtain ⟨d1, d2, d3⟩ := cont_facts (cp / 64 % 64) (by omega)
  obtain ⟨e1, e2, e3⟩ := cont_facts (cp % 64) (by omega)
  have hlen : pre.length + 2 < s.length := by
    rw [hs]
    simp
  have h0 : byteAt s pre.length = some (0xE0 ||| (cp / 4096)) := by
    have := byteAt_append pre ((0xE0 ||| (cp / 4096)) :: (0x80 ||| (cp / 64 % 64)) ::
      (0x80 ||| (cp % 64)) :: post) 0
    rw [Nat.add_zero] at this
    rw [hs, this, byteAt_cons_zero, byteAt_mod _ a1]
  have h1 : byteAt s (pre.length + 1) = some (0x80 ||| (cp / 64 % 64)) := by
    rw [hs, byteAt_append, byteAt_cons_succ, byteAt_cons_zero, byteAt_mod _ d1]
  have h2 : byteAt s (pre.length + 2) = some (0x80 ||| (cp % 64)) := by
    rw [hs, byteAt_append, byteAt_cons_succ, byteAt_cons_succ, byteAt_cons_zero,
      byteAt_mod _ e1]
  refine ⟨?_, ?_⟩
  · rw [deref_three s _ _ _ _ hlen h0 h1 h2 ⟨a2, a3⟩ d2 e2, a4, d3, e3,
      accum (cp / 4096) (cp / 64 % 64) (by omega) (by omega),
      accum (cp / 4096 * 64 + cp / 64 % 64) (cp % 64) (by omega) (by omega)]
    congr 1
    omega
  · obtain ⟨c, hc, hc256, hinc⟩ := increment_eq s pre.length (by omega)
    rw [h0] at hc
    cases hc
    rw [hinc, (seqLen_of_class _ hc256).2.2.1 ⟨a2, a3⟩, Nat.min_eq_left (by omega)]

theorem roundtrip_four (pre post : List Nat) (cp : Nat) (hlo : 0x10000 ≤ cp)
    (h : cp < 0x200000) (s : List Nat)
    (hs : s = pre ++ ((0xF0 ||| (cp >>> 18)) :: (0x80 ||| ((cp >>> 12) &&& 0x3F)) ::
      (0x80 ||| ((cp >>> 6) &&& 0x3F)) :: (0x80 ||| (cp &&& 0x3F)) :: post)) :
    deref ⟨s, pre.length, s.length⟩ = some cp ∧
    increment ⟨s, pre.length, s.length⟩ = some ⟨s, pre.length + 4, s.length⟩ := by
  have _hlo := hlo
  rw [shr18, shr12, shr6, and63, and63, and63] at hs
  obtain ⟨a1, a2, a3, a4⟩ := lead4_facts (cp / 262144) (by omega)
  obtain ⟨d1, d2, d3⟩ := cont_facts (cp / 4096 % 64) (by omega)
  obtain ⟨e1, e2, e3⟩ := cont_facts (cp / 64 % 64) (by omega)
  obtain ⟨f1, f2, f3⟩ := cont_facts (cp % 64) (by omega)
  have hlen : pre.length + 3 < s.length := by
    rw [hs]
    simp
  have h0 : byteAt s pre.length = some (0xF0 ||| (cp / 262144)) := by
    have := byteAt_append pre ((0xF0 ||| (cp / 262144)) :: (0x80 ||| (cp / 4096 % 64)) ::
      (0x80 ||| (cp / 64 % 64)) :: (0x80 ||| (cp % 64)) :: post) 0
    rw [Nat.add_zero] at this
    rw [hs, this, byteAt_cons_zero, byteAt_mod _ a1]
  have h1 : byteAt s (pre.length + 1) = some (0x80 ||| (cp / 4096 % 64)) := by
    rw [hs, byteAt_append, byteAt_cons_succ, byteAt_cons_zero, byteAt_mod _ d1]
  have h2 : byteAt s (pre.length + 2) = some (0x80 ||| (cp / 64 % 64)) := by
    rw [hs, byteAt_append, byteAt_cons_succ, byteAt_cons_succ, byteAt_cons_zero,
      byteAt_mod _ e1]
  have h3 : byteAt s (pre.length + 3) = some (0x80 ||| (cp % 64)) := by
    rw [hs, byteAt_append, byteAt_cons_succ, byteAt_cons_succ, byteAt_cons_succ,
      byteAt_cons_zero, byteAt_mod _ f1]
  refine ⟨?_, ?_⟩
  · rw [deref_four s _ _ _ _ _ hlen h0 h1 h2 h3 ⟨a2, a3⟩ d2 e2 f2, a4, d3, e3, f3,
      accum (cp / 262144) (cp / 4096 % 64) (by omega) (by omega),
      accum (cp / 262144 * 64 + cp / 4096 % 64) (cp / 64 % 64) (by omega) (by omega),
      accum ((cp / 262144 * 64 + cp / 4096 % 64) * 64 + cp / 64 % 64) (cp % 64)
        (by omega) (by omega)]
    congr 1
    omega
  · obtain ⟨c, hc, hc256, hinc⟩ := increment_eq s pre.length (by omega)
    rw [h0] at hc
    cases hc
    rw [hinc, (seqLen_of_class _ hc256).2.2.2 ⟨a2, a3⟩, Nat.min_eq_left (by omega)]

/-- Every value below `2 ^ 21` is read back from its encoding, and the
increment lands just after it. -/
theorem roundtrip_char (pre post : List Nat) (cp : Nat) (h : cp < 0x200000) :
    deref ⟨pre ++ (utf8EncodeChar cp ++ post), pre.length,
      (pre ++ (utf8EncodeChar cp ++ post)).length⟩ = some cp ∧
    increment ⟨pre ++ (utf8EncodeChar cp ++ post), pre.length,
      (pre ++ (utf8EncodeChar cp ++ post)).length⟩ =
      some ⟨pre ++ (utf8EncodeChar cp ++ post), pre.length + (utf8EncodeChar cp).length,
        (pre ++ (utf8EncodeChar cp ++ post)).length⟩ := by
  by_cases c1 : cp < 0x80
  · have e : utf8EncodeChar cp = [cp] := by
      unfold utf8EncodeChar
      rw [if_pos c1]
    rw [e]
    exact roundtrip_one pre post cp c1
  · by_cases c2 : cp < 0x800
    · have e : utf8EncodeChar cp = [0xC0 ||| (cp >>> 6), 0x80 ||| (cp &&& 0x3F)] := by
        unfold utf8EncodeChar
        rw [if_neg c1, if_pos c2]
      rw [e]
      exact roundtrip_two pre post cp (by omega) c2 _ rfl
    · by_cases c3 : cp < 0x10000
      · have e : utf8EncodeChar cp = [0xE0 ||| (cp >>> 12), 0x80 ||| ((cp >>> 6) &&& 0x3F),
            0x80 ||| (cp &&& 0x3F)] := by
          unfold utf8EncodeChar
          rw [if_neg c1, if_neg c2, if_pos c3]
        rw [e]
        exact roundtrip_three pre post cp (by omega) c3 _ rfl
      · have e : utf8EncodeChar cp = [0xF0 ||| (cp >>> 18), 0x80 ||| ((cp >>> 12) &&& 0x3F),
            0x80 ||| ((cp >>> 6) &&& 0x3F), 0x80 ||| (cp &&& 0x3F)] := by
          unfold utf8EncodeChar
          rw [if_neg c1, if_neg c2, if_neg c3]
        rw [e]
        exact roundtrip_four pre post cp (by omega) h _ rfl

/-! ### Round trip of a whole string -/

theorem utf8Encode_append (a b : List Nat) :
    utf8Encode (a ++ b) = utf8Encode a ++ utf8Encode b := by
  induction a with
  | nil => rfl
  | cons cp rest ih => simp [utf8Encode, ih]

theorem length_le_utf8Encode (l : List Nat) : l.length ≤ (utf8Encode l).length := by
  induction l with
  | nil => simp [utf8Encode]
  | cons cp rest ih =>
    have := (utf8EncodeChar_length cp).1
    simp only [utf8Encode, List.length_append, List.length_cons]
    omega

theorem isScalar_lt {cp : Nat} (h : isScalar cp) : cp < 0x200000 := by
  unfold isScalar at h
  omega

theorem collect_encoded : ∀ (l : List Nat), (∀ cp ∈ l, cp < 0x200000) →
    ∀ (pre s : List Nat), s = pre ++ utf8Encode l → ∀ fuel, l.length ≤ fuel →
    collect fuel ⟨s, pre.length, s.length⟩ (utf8_end s) = some l
  | [], _, pre, s, hs, fuel, _ => by
    have e : pre.length = s.length := by
      rw [hs]
      simp [utf8Encode]
    cases fuel <;> simp [collect, utf8_end, e]
  | cp :: rest, hl, pre, s, hs, fuel, hf => by
    obtain ⟨f, rfl⟩ : ∃ f, fuel = f + 1 := ⟨fuel - 1, by simp at hf; omega⟩
    have hcp : cp < 0x200000 := hl cp (List.mem_cons_self _ _)
    have hs0 : s = pre ++ (utf8EncodeChar cp ++ utf8Encode rest) := hs
    obtain ⟨hd, hi⟩ := roundtrip_char pre (utf8Encode rest) cp hcp
    rw [← hs0] at hd hi
    have hne : pre.length ≠ s.length := by
      have := (utf8EncodeChar_length cp).1
      rw [hs0]
      simp only [List.length_append]
      omega
    have ih := collect_encoded rest (fun x hx => hl x (List.mem_cons_of_mem _ hx))
      (pre ++ utf8EncodeChar cp) s (by rw [hs0, List.append_assoc]) f
      (by simp at hf; omega)
    rw [List.length_append] at ih
    rw [collect]
    simp only [utf8_end, hne, if_false, hd, hi]
    simp only [utf8_end] at ih
    rw [ih]
    rfl

/-- C7: for every list of Unicode scalar values, the range loop from
`utf8_begin` to `utf8_end` over its standard UTF-8 encoding yields exactly
that list; at the start of each encoded value the dereference returns that
value and the increment advances by its encoded length, which is 1 to 4 bytes. -/
theorem utf8_roundtrip (l : List Nat) (hl : ∀ cp ∈ l, isScalar cp) :
    decodeAll (utf8Encode l) = some l ∧
    ∀ pre cp post, l = pre ++ cp :: post →
      deref ⟨utf8Encode l, (utf8Encode pre).length, (utf8Encode l).length⟩ = some cp ∧
      increment ⟨utf8Encode l, (utf8Encode pre).length, (utf8Encode l).length⟩ =
        some ⟨utf8Encode l, (utf8Encode pre).length + (utf8EncodeChar cp).length,
          (utf8Encode l).length⟩ ∧
      1 ≤ (utf8EncodeChar cp).length ∧ (utf8EncodeChar cp).length ≤ 4 := by
  have hl2 : ∀ cp ∈ l, cp < 0x200000 := fun cp h => isScalar_lt (hl cp h)
  refine ⟨?_, ?_⟩
  · have key := collect_encoded l hl2 [] (utf8Encode l) rfl (utf8Encode l).length
      (length_le_utf8Encode l)
    exact key
  · intro pre cp post hsplit
    have hcp : cp < 0x200000 := hl2 cp (by rw [hsplit]; simp)
    have e : utf8Encode l = utf8Encode pre ++ (utf8EncodeChar cp ++ utf8Encode post) := by
      rw [hsplit, utf8Encode_append]
      rfl
    obtain ⟨hd, hi⟩ := roundtrip_char (utf8Encode pre) (utf8Encode post) cp hcp
    rw [← e] at hd hi
    exact ⟨hd, hi, utf8EncodeChar_length cp⟩

/-- Witness for C7 on the text `A é € 😀` followed by U+10FFFF. -/
theorem utf8_roundtrip_witness :
    (∀ cp ∈ [0x41, 0xE9, 0x20AC, 0x1F600, 0x10FFFF], isScalar cp) ∧
    utf8Encode [0x41, 0xE9, 0x20AC, 0x1F600, 0x10FFFF] =
      [0x41, 0xC3, 0xA9, 0xE2, 0x82, 0xAC, 0xF0, 0x9F, 0x98, 0x80, 0xF4, 0x8F, 0xBF, 0xBF] ∧
    decodeAll (utf8Encode [0x41, 0xE9, 0x20AC, 0x1F600, 0x10FFFF]) =
      some [0x41, 0xE9, 0x20AC, 0x1F600, 0x10FFFF] :=
  ⟨by decide, by decide,
    (utf8_roundtrip [0x41, 0xE9, 0x20AC, 0x1F600, 0x10FFFF] (by decide)).1⟩

/-! ### Malformed sequences -/

theorem loop_malformed (s : List Nat) (p : Nat) : ∀ (n temp cp : Nat), temp < s.length →
    (∃ i, temp < i ∧ i ≤ temp + n ∧
      (s.length ≤ i ∨ ∃ b, byteAt s i = some b ∧ b &&& 0xC0 ≠ 0x80)) →
    decode_continuation_loop ⟨s, p, s.length⟩ n temp cp = some 0xFFFD
  | 0, temp, cp, _, hbad => by
    obtain ⟨i, h1, h2, _⟩ := hbad
    omega
  | n + 1, temp, cp, ht, hbad => by
    rw [decode_continuation_loop]
    by_cases h1 : temp + 1 = s.length
    · simp [h1]
    · obtain ⟨b, hb, _⟩ := byteAt_lt s (temp + 1) (by omega)
      by_cases hc : b &&& 0xC0 = 0x80
      · simp only [h1, if_false, hb, hc, ne_eq, not_true_eq_false]
        apply loop_malformed s p n (temp + 1) _ (by omega)
        obtain ⟨i, i1, i2, i3⟩ := hbad
        have hne : i ≠ temp + 1 := by
          intro e
          subst e
          rcases i3 with i3 | ⟨b2, hb2, hbad2⟩
          · omega
          · rw [hb] at hb2
            cases hb2
            exact hbad2 hc
        exact ⟨i, by omega, by omega, i3⟩
      · simp [h1, hb, hc]

theorem byteAt_bound {s : List Nat} {i c : Nat} (h : byteAt s i = some c) : c < 256 := by
  unfold byteAt at h
  cases hx : s[i]? with
  | none =>
    rw [hx] at h
    cases h
  | some x =>
    rw [hx] at h
    simp only [Option.map_some', Option.some.injEq] at h
    omega

/-- C8 (counterexample): on the bytes `C3 41` the lead byte announces one
continuation byte and `41` is not one; the dereference yields U+FFFD, but the
increment moves two bytes to the end rather than one byte, so `A` is never
decoded. -/
theorem increment_skips_mismatching_byte :
    byteAt [0xC3, 0x41] 0 = some 0xC3 ∧ 0xC3 &&& 0xE0 = 0xC0 ∧
    byteAt [0xC3, 0x41] 1 = some 0x41 ∧ 0x41 &&& 0xC0 ≠ 0x80 ∧
    deref ⟨[0xC3, 0x41], 0, 2⟩ = some 0xFFFD ∧
    increment ⟨[0xC3, 0x41], 0, 2⟩ = some ⟨[0xC3, 0x41], 2, 2⟩ ∧
    increment ⟨[0xC3, 0x41], 0, 2⟩ ≠ some ⟨[0xC3, 0x41], 1, 2⟩ ∧
    decodeAll [0xC3, 0x41] = some [0xFFFD] := by
  decide

/-- C8 (amended): at a position whose lead byte announces `k` continuation
bytes (`k` in 1..3), if one of the next `k` positions is past the end or
holds a byte that is not `10xxxxxx`, the dereference yields U+FFFD and the
increment advances by the announced length `1 + k` clipped at the end of the
input (at least 1 byte), wherever the mismatch is. -/
theorem malformed_yields_replacement (s : List Nat) (pos c k : Nat) (hpos : pos < s.length)
    (hc : byteAt s pos = some c)
    (hlead : (c &&& 0xE0 = 0xC0 ∧ k = 1) ∨ (c &&& 0xF0 = 0xE0 ∧ k = 2) ∨
      (c &&& 0xF8 = 0xF0 ∧ k = 3))
    (hbad : ∃ j, 1 ≤ j ∧ j ≤ k ∧
      (s.length ≤ pos + j ∨ ∃ b, byteAt s (pos + j) = some b ∧ b &&& 0xC0 ≠ 0x80)) :
    deref ⟨s, pos, s.length⟩ = some 0xFFFD ∧
    increment ⟨s, pos, s.length⟩ = some ⟨s, min (pos + 1 + k) s.length, s.length⟩ ∧
    pos + 1 ≤ min (pos + 1 + k) s.length := by
  have hc256 := byteAt_bound hc
  obtain ⟨k1, k2, k3, k4, _⟩ := byte_classes c hc256
  obtain ⟨l1, l2, l3, l4⟩ := seqLen_of_class c hc256
  obtain ⟨j, j1, j2, j3⟩ := hbad
  have hloop : ∀ cp, decode_continuation_loop ⟨s, pos, s.length⟩ k pos cp = some 0xFFFD :=
    fun cp => loop_malformed s pos k pos cp hpos ⟨pos + j, by omega, by omega, j3⟩
  obtain ⟨c', hc', _, hinc⟩ := increment_eq s pos hpos
  rw [hc] at hc'
  cases hc'
  have n1 : ¬ (c &&& 0x80 = 0) := by
    intro e
    have := k1.1 e
    rcases hlead with ⟨h, _⟩ | ⟨h, _⟩ | ⟨h, _⟩
    · have := k2.1 h
      omega
    · have := k3.1 h
      omega
    · have := k4.1 h
      omega
  refine ⟨?_, ?_, by omega⟩
  · unfold deref
    simp only [if_neg (Nat.ne_of_lt hpos), hc, if_neg n1]
    rcases hlead with ⟨h, rfl⟩ | ⟨h, rfl⟩ | ⟨h, rfl⟩
    · rw [if_pos h]
      exact hloop _
    · rw [if_neg (fun e => by have := k2.1 e; have := k3.1 h; omega), if_pos h]
      exact hloop _
    · rw [if_neg (fun e => by have := k2.1 e; have := k4.1 h; omega),
        if_neg (fun e => by have := k3.1 e; have := k4.1 h; omega), if_pos h]
      exact hloop _
  · rw [hinc]
    rcases hlead with ⟨h, rfl⟩ | ⟨h, rfl⟩ | ⟨h, rfl⟩
    · rw [l2 (k2.1 h)]
    · rw [l3 (k3.1 h)]
    · rw [l4 (k4.1 h)]

/-- Witness for C8 (amended) on the bytes `E2 82 41`: the third byte is not a
continuation byte. -/
theorem malformed_yields_replacement_witness :
    deref ⟨[0xE2, 0x82, 0x41], 0, [0xE2, 0x82, 0x41].length⟩ = some 0xFFFD ∧
    increment ⟨[0xE2, 0x82, 0x41], 0, [0xE2, 0x82, 0x41].length⟩ =
      some ⟨[0xE2, 0x82, 0x41], min (0 + 1 + 2) [0xE2, 0x82, 0x41].length,
        [0xE2, 0x82, 0x41].length⟩ ∧
    0 + 1 ≤ min (0 + 1 + 2) [0xE2, 0x82, 0x41].length :=
  malformed_yields_replacement [0xE2, 0x82, 0x41] 0 0xE2 2 (by decide) (by decide)
    (Or.inr (Or.inl ⟨by decide, rfl⟩))
    ⟨2, by decide, by decide, Or.inr ⟨0x41, by decide, by decide⟩⟩

/-! ### Range of the decoded values -/

theorem loop_bound (s : List Nat) (p : Nat) : ∀ (n temp cp B : Nat), temp < s.length →
    cp < B → B * 64 ^ n ≤ 2 ^ 21 →
    ∃ v, decode_continuation_loop ⟨s, p, s.length⟩ n temp cp = some v ∧
      (v = 0xFFFD ∨ v < B * 64 ^ n)
  | 0, temp, cp, B, _, hcp, _ => by
    refine ⟨cp, by rw [decode_continuation_loop], Or.inr ?_⟩
    simpa using hcp
  | n + 1, temp, cp, B, ht, hcp, hB => by
    rw [decode_continuation_loop]
    by_cases h1 : temp + 1 = s.length
    · exact ⟨0xFFFD, by simp [h1], Or.inl rfl⟩
    · obtain ⟨b, hb, hb256⟩ := byteAt_lt s (temp + 1) (by omega)
      by_cases hc : b &&& 0xC0 = 0x80
      · have e : B * 64 ^ (n + 1) = (B * 64) * 64 ^ n := by ring
        have hpow : 1 ≤ 64 ^ n := Nat.one_le_pow _ _ (by decide)
        have hB1 : B * 64 ≤ 2 ^ 21 := by
          calc B * 64 = (B * 64) * 1 := by omega
            _ ≤ (B * 64) * 64 ^ n := Nat.mul_le_mul_left _ hpow
            _ ≤ 2 ^ 21 := by rw [← e]; exact hB
        have hacc : ((cp <<< 6) % 2 ^ 32) ||| (b &&& 0x3F) = cp * 64 + b % 64 := by
          rw [and63, accum cp (b % 64) (by omega) (by omega)]
        obtain ⟨v, hv, hr⟩ := loop_bound s p n (temp + 1) (cp * 64 + b % 64) (B * 64)
          (by omega) (by omega) (by rw [← e]; exact hB)
        refine ⟨v, ?_, ?_⟩
        · simp only [h1, if_false, hb, hc, ne_eq, not_true_eq_false, hacc]
          exact hv
        · rw [e]
          exact hr
      · exact ⟨0xFFFD, by simp [h1, hb, hc], Or.inl rfl⟩

/-- The dereference before the end reads only inside the string and returns a
value bounded according to the class of the lead byte. -/
theorem deref_spec (s : List Nat) (pos : Nat) (hpos : pos < s.length) :
    ∃ c v, byteAt s pos = some c ∧ c < 256 ∧ deref ⟨s, pos, s.length⟩ = some v ∧
      v ≤ 0x1FFFFF ∧ (c < 0xF0 → v ≤ 0xFFFF) ∧ (c < 0xE0 → v = 0xFFFD ∨ v < 0x800) := by
  obtain ⟨c, hc, hc256⟩ := byteAt_lt s pos hpos
  obtain ⟨k1, k2, k3, k4, m2, m3, m4⟩ := byte_classes c hc256
  suffices h : ∃ v, deref ⟨s, pos, s.length⟩ = some v ∧
      v ≤ 0x1FFFFF ∧ (c < 0xF0 → v ≤ 0xFFFF) ∧ (c < 0xE0 → v = 0xFFFD ∨ v < 0x800) by
    obtain ⟨v, h1, h2⟩ := h
    exact ⟨c, v, hc, hc256, h1, h2⟩
  unfold deref
  simp only [if_neg (Nat.ne_of_lt hpos), hc]
  by_cases c1 : c &&& 0x80 = 0
  · have := k1.1 c1
    exact ⟨c, by rw [if_pos c1], by omega, fun _ => by omega, fun _ => by omega⟩
  · rw [if_neg c1]
    by_cases c2 : c &&& 0xE0 = 0xC0
    · rw [if_pos c2]
      obtain ⟨v, hv, hr⟩ := loop_bound s pos 1 pos (c &&& 0x1F) 32 hpos m2 (by decide)
      refine ⟨v, hv, ?_, fun _ => ?_, fun _ => ?_⟩ <;> omega
    · rw [if_neg c2]
      by_cases c3 : c &&& 0xF0 = 0xE0
      · rw [if_pos c3]
        have := k3.1 c3
        obtain ⟨v, hv, hr⟩ := loop_bound s pos 2 pos (c &&& 0x0F) 16 hpos m3 (by decide)
        refine ⟨v, hv, ?_, fun _ => ?_, fun _ => ?_⟩ <;> omega
      · rw [if_neg c3]
        by_cases c4 : c &&& 0xF8 = 0xF0
        · rw [if_pos c4]
          have := k4.1 c4
          obtain ⟨v, hv, hr⟩ := loop_bound s pos 3 pos (c &&& 0x07) 8 hpos m4 (by decide)
          refine ⟨v, hv, ?_, fun _ => ?_, fun _ => ?_⟩ <;> omega
        · rw [if_neg c4]
          exact ⟨0xFFFD, rfl, by omega, fun _ => by omega, fun _ => Or.inl rfl⟩

/-- C9 (counterexample): the bytes `ED A0 80` decode to the surrogate U+D800
and the bytes `F7 BF BF BF` decode to `0x1FFFFF`, above U+10FFFF; neither is a
Unicode scalar value. -/
theorem deref_yields_non_scalar :
    deref ⟨[0xED, 0xA0, 0x80], 0, 3⟩ = some 0xD800 ∧ ¬ isScalar 0xD800 ∧
    deref ⟨[0xF7, 0xBF, 0xBF, 0xBF], 0, 4⟩ = some 0x1FFFFF ∧ ¬ isScalar 0x1FFFFF := by
  decide

/-- C9 (amended): for every byte string and position before the end, the
dereference returns a value of at most 21 bits (`≤ 0x1FFFFF`); it is at most
`0xFFFF` unless the lead byte has the four-byte pattern, and it is a Unicode
scalar value whenever the lead byte has neither the three-byte nor the
four-byte pattern. -/
theorem deref_value_range (s : List Nat) (pos : Nat) (hpos : pos < s.length) :
    ∃ c v, byteAt s pos = some c ∧ deref ⟨s, pos, s.length⟩ = some v ∧
      v ≤ 0x1FFFFF ∧ (c &&& 0xF8 ≠ 0xF0 → v ≤ 0xFFFF) ∧
      (c &&& 0xF0 ≠ 0xE0 → c &&& 0xF8 ≠ 0xF0 → isScalar v) := by
  obtain ⟨c, v, hc, hc256, hv, b1, b2, b3⟩ := deref_spec s pos hpos
  obtain ⟨_, _, k3, k4, _⟩ := byte_classes c hc256
  refine ⟨c, v, hc, hv, b1, fun h4 => ?_, fun h3 h4 => ?_⟩
  · by_cases hlt : c < 0xF0
    · exact b2 hlt
    · by_cases hge : c < 0xF8
      · exact absurd (k4.2 ⟨by omega, hge⟩) h4
      · have hd := hv
        unfold deref at hd
        have n1 : ¬ (c &&& 0x80 = 0) := fun e => by
          have := (byte_classes c hc256).1.1 e
          omega
        have n2 : ¬ (c &&& 0xE0 = 0xC0) := fun e => by
          have := (byte_classes c hc256).2.1.1 e
          omega
        have n3 : ¬ (c &&& 0xF0 = 0xE0) := fun e => by
          have := k3.1 e
          omega
        simp only [if_neg (Nat.ne_of_lt hpos), hc, if_neg n1, if_neg n2, if_neg n3,
          if_neg h4, Option.some.injEq] at hd
        omega
  · have hlt : c < 0xE0 ∨ 0xF8 ≤ c := by
      by_cases h : c < 0xE0
      · exact Or.inl h
      · by_cases h' : c < 0xF0
        · exact absurd (k3.2 ⟨by omega, h'⟩) h3
        · by_cases h'' : c < 0xF8
          · exact absurd (k4.2 ⟨by omega, h''⟩) h4
          · exact Or.inr (by omega)
    rcases hlt with hlt | hge
    · unfold isScalar
      rcases b3 hlt with e | e <;> omega
    · have hd := hv
      unfold deref at hd
      have n1 : ¬ (c &&& 0x80 = 0) := fun e => by
        have := (byte_classes c hc256).1.1 e
        omega
      have n2 : ¬ (c &&& 0xE0 = 0xC0) := fun e => by
        have := (byte_classes c hc256).2.1.1 e
        omega
      simp only [if_neg (Nat.ne_of_lt hpos), hc, if_neg n1, if_neg n2, if_neg h3,
        if_neg h4, Option.some.injEq] at hd
      unfold isScalar
      omega

/-- Witness for C9 (amended) on the bytes `ED A0 80`. -/
theorem deref_value_range_witness :
    (0 : Nat) < [0xED, 0xA0, 0x80].length ∧
    ∃ c v, byteAt [0xED, 0xA0, 0x80] 0 = some c ∧
      deref ⟨[0xED, 0xA0, 0x80], 0, [0xED, 0xA0, 0x80].length⟩ = some v ∧
      v ≤ 0x1FFFFF ∧ (c &&& 0xF8 ≠ 0xF0 → v ≤ 0xFFFF) ∧
      (c &&& 0xF0 ≠ 0xE0 → c &&& 0xF8 ≠ 0xF0 → isScalar v) :=
  ⟨by decide, deref_value_range [0xED, 0xA0, 0x80] 0 (by decide)⟩

/-! ### Termination -/

theorem increment_at_end (s : List Nat) :
    increment ⟨s, s.length, s.length⟩ = some ⟨s, s.length, s.length⟩ := by
  simp [increment]

theorem incrementN_reaches_end (s : List Nat) : ∀ (r pos : Nat), pos ≤ s.length →
    s.length - pos ≤ r → incrementN r ⟨s, pos, s.length⟩ = some ⟨s, s.length, s.length⟩
  | 0, pos, h1, h2 => by
    have e : pos = s.length := by omega
    rw [e, incrementN]
  | r + 1, pos, h1, h2 => by
    rw [incrementN]
    by_cases e : pos = s.length
    · rw [e, increment_at_end]
      exact incrementN_reaches_end s r s.length (Nat.le_refl _) (by omega)
    · obtain ⟨c, _, _, hinc⟩ := increment_eq s pos (by omega)
      have := seqLen_bounds c
      rw [hinc]
      exact incrementN_reaches_end s r _ (by omega) (by omega)

theorem collect_total (s : List Nat) : ∀ (fuel pos : Nat), pos ≤ s.length →
    s.length - pos ≤ fuel →
    ∃ out, collect fuel ⟨s, pos, s.length⟩ (utf8_end s) = some out ∧
      out.length ≤ s.length - pos
  | 0, pos, h1, h2 => by
    have e : pos = s.length := by omega
    exact ⟨[], by simp [collect, utf8_end, e], by simp⟩
  | fuel + 1, pos, h1, h2 => by
    rw [collect]
    by_cases e : pos = s.length
    · exact ⟨[], by simp [utf8_end, e], by simp⟩
    · obtain ⟨c, _, _, hinc⟩ := increment_eq s pos (by omega)
      obtain ⟨_, v, _, _, hv, _⟩ := deref_spec s pos (by omega)
      have hb := seqLen_bounds c
      obtain ⟨out, ho, hl⟩ := collect_total s fuel (min (pos + seqLen c) s.length)
        (by omega) (by omega)
      refine ⟨v :: out, ?_, ?_⟩
      · simp only [utf8_end, e, if_false, hv, hinc]
        simp only [utf8_end] at ho
        rw [ho]
        rfl
      · simp only [List.length_cons]
        omega

/-- C10: for every byte string of length `n`, each dereference before the end
returns a value, each increment before the end succeeds and advances the
position by at least 1 and at most 4 bytes without passing the end, the
iterator from `utf8_begin` equals `utf8_end` after at most `n` increments, and
the range loop finishes with at most `n` values. -/
theorem decoding_total (s : List Nat) :
    (∀ pos, pos < s.length →
      (∃ v, deref ⟨s, pos, s.length⟩ = some v) ∧
      ∃ next, increment ⟨s, pos, s.length⟩ = some ⟨s, next, s.length⟩ ∧
        pos + 1 ≤ next ∧ next ≤ pos + 4 ∧ next ≤ s.length) ∧
    (∃ k, k ≤ s.length ∧ incrementN k (utf8_begin s) = some (utf8_end s)) ∧
    (∃ out, decodeAll s = some out ∧ out.length ≤ s.length) := by
  refine ⟨fun pos hpos => ⟨?_, ?_⟩, ?_, ?_⟩
  · obtain ⟨_, v, _, _, hv, _⟩ := deref_spec s pos hpos
    exact ⟨v, hv⟩
  · obtain ⟨c, _, _, hinc⟩ := increment_eq s pos hpos
    have := seqLen_bounds c
    exact ⟨min (pos + seqLen c) s.length, hinc, by omega, by omega, by omega⟩
  · exact ⟨s.length, Nat.le_refl _,
      incrementN_reaches_end s s.length 0 (Nat.zero_le _) (by omega)⟩
  · obtain ⟨out, ho, hl⟩ := collect_total s s.length 0 (Nat.zero_le _) (by omega)
    exact ⟨out, ho, by omega⟩

/-- Witness for C10 on the malformed bytes `41 C3 E2 82 FF`: position 1 holds a
two-byte lead followed by a non-continuation byte. -/
theorem decoding_total_witness :
    (1 : Nat) < [0x41, 0xC3, 0xE2, 0x82, 0xFF].length ∧
    ((∃ v, deref ⟨[0x41, 0xC3, 0xE2, 0x82, 0xFF], 1,
        [0x41, 0xC3, 0xE2, 0x82, 0xFF].length⟩ = some v) ∧
      ∃ next, increment ⟨[0x41, 0xC3, 0xE2, 0x82, 0xFF], 1,
          [0x41, 0xC3, 0xE2, 0x82, 0xFF].length⟩ =
          some ⟨[0x41, 0xC3, 0xE2, 0x82, 0xFF], next,
            [0x41, 0xC3, 0xE2, 0x82, 0xFF].length⟩ ∧
        1 + 1 ≤ next ∧ next ≤ 1 + 4 ∧ next ≤ [0x41, 0xC3, 0xE2, 0x82, 0xFF].length) :=
  ⟨by decide, (decoding_total [0x41, 0xC3, 0xE2, 0x82, 0xFF]).1 1 (by decide)⟩

/-! ### Shutter-speed formatting -/

theorem toInt_range {q : ℚ} (h1 : -(2 ^ 31 : ℚ) - 1 < q) (h2 : q < 2 ^ 31) :
    -(2 ^ 31) ≤ toInt q ∧ toInt q < 2 ^ 31 := by
  unfold toInt
  by_cases hq : 0 ≤ q
  · rw [if_pos hq]
    have hf : (0 : Int) ≤ ⌊q⌋ := Int.floor_nonneg.mpr hq
    have hlt : ⌊q⌋ < (2 ^ 31 : Int) := Int.floor_lt.mpr (by exact_mod_cast h2)
    exact ⟨by omega, hlt⟩
  · rw [if_neg hq]
    have hc : ⌈q⌉ ≤ (0 : Int) := Int.ceil_le.mpr (by exact_mod_cast (le_of_not_le hq))
    have hgt : (-(2 ^ 31) - 1 : Int) < ⌈q⌉ := Int.lt_ceil.mpr (by exact_mod_cast h1)
    exact ⟨by omega, by omega⟩

/-- Away from a zero numerator and a zero denominator the formatting of a pair
of 32-bit integers is defined. -/
theorem shutterSpeed_defined (first second : Int)
    (hf : -(2 ^ 31) ≤ first ∧ first < 2 ^ 31) (hs : -(2 ^ 31) ≤ second ∧ second < 2 ^ 31)
    (h1 : first ≠ 0) (h2 : second ≠ 0) : ∃ str, shutterSpeed first second = some str := by
  unfold shutterSpeed
  by_cases hle : second ≤ first
  · rw [if_pos hle]
    have hno : ¬ (first = -(2 ^ 31) ∧ second = -1) := by omega
    unfold intDiv
    rw [if_neg h2, if_neg hno]
    exact ⟨_, rfl⟩
  · rw [if_neg hle]
    have hfa : (1 : ℚ) ≤ |(first : ℚ)| := by exact_mod_cast Int.one_le_abs h1
    have hsa : |(second : ℚ)| ≤ 2 ^ 31 - 1 := by
      rw [abs_le]
      constructor
      · have : (-(2 ^ 31) + 1 : Int) ≤ second := by omega
        have h' : ((-(2 ^ 31) + 1 : Int) : ℚ) ≤ (second : ℚ) := by exact_mod_cast this
        push_cast at h'
        linarith
      · have : second ≤ (2 ^ 31 - 1 : Int) := by omega
        have h' : (second : ℚ) ≤ ((2 ^ 31 - 1 : Int) : ℚ) := by exact_mod_cast this
        push_cast at h'
        linarith
    have hq : |(second : ℚ) / (first : ℚ)| ≤ 2 ^ 31 - 1 := by
      rw [abs_div]
      exact (div_le_self (abs_nonneg _) hfa).trans hsa
    obtain ⟨q1, q2⟩ := abs_le.mp hq
    have r := toInt_range (q := 1 / 2 + (second : ℚ) / (first : ℚ)) (by linarith) (by linarith)
    unfold roundedReciprocal
    rw [if_neg h1]
    simp only
    rw [if_pos r]
    exact ⟨_, rfl⟩

/-- C11 (code defect): for the exposure time `0/0` the test `r.first >= r.second`
holds and `r.first / r.second` is an integer division by zero, so the formatting
is undefined; the same holds for every `n/0` with `n ≥ 0`, and for `0/d` with
`d > 0` the quotient `(double)r.second / r.first` is infinite and its conversion
to `int` is undefined. Ordinary values are formatted (`1/250` gives `1/250s`,
`2/1` gives `2s`) and an absent key leaves the field empty. -/
theorem shutter_zero_denominator_undefined :
    shutterSpeed 0 0 = none ∧ parseExifShutter (some (0, 0)) = none ∧
    intDiv 0 0 = none ∧
    (∀ n : Nat, shutterSpeed (n : Int) 0 = none) ∧
    (∀ d : Nat, shutterSpeed 0 ((d : Int) + 1) = none) ∧
    shutterSpeed 1 250 = some "1/250s" ∧ shutterSpeed 2 1 = some "2s" ∧
    parseExifShutter none = some "" := by
  refine ⟨by decide, by decide, by decide, fun n => ?_, fun d => ?_, ?_, by decide, rfl⟩
  · have h : (0 : Int) ≤ (n : Int) := Int.natCast_nonneg n
    simp [shutterSpeed, intDiv, h]
  · have h : ¬ ((d : Int) + 1 ≤ 0) := by omega
    simp [shutterSpeed, roundedReciprocal, h]
  · simp only [shutterSpeed, roundedReciprocal, toInt]
    norm_num
    rfl

end Frame
